import Mathlib

/-!
A shallow embedding of `src/parsers/diff_parser.py` (class `DiffParser`).

Strings are modelled as Lean `String` (a list of characters); regex matches
of the two anchored patterns `FILE_HEADER_RE` and `HUNK_HEADER_RE` are
modelled by deterministic character-list matchers (both patterns are
deterministic: each `\S+` / `\d+` group is delimited by a character that can
never occur inside the group, so greedy matching with no backtracking is
exact).  Python `str.splitlines` is modelled on the line terminators
`"\n"`, `"\r\n"` and `"\r"` (the exotic Unicode terminators `\v, \f, \x1c..
\x1e, \x85,  ,  ` are not modelled); `str.strip()`-emptiness is
modelled on the six ASCII whitespace characters.  `ValueError` is modelled
with `Except String`.
-/

namespace DiffParser

/-- The six ASCII whitespace characters of Python's `str.strip()` / `\s`. -/
def isPySpace (c : Char) : Bool :=
  decide (c = ' ' ∨ c = '\t' ∨ c = '\n' ∨ c = '\r' ∨ c = '\x0b' ∨ c = '\x0c')

/-- `not diff_text.strip()`: every character is whitespace. -/
def isBlank (s : String) : Bool :=
  s.data.all isPySpace

/-- Worker for `str.splitlines`: `acc` holds the current line reversed,
`sawCR` records that the previous character was `'\r'` (so that a following
`'\n'` is part of the same `"\r\n"` terminator). -/
def slGo : List Char → Bool → List Char → List (List Char)
  | acc, _, [] => if acc.isEmpty then [] else [acc.reverse]
  | acc, sawCR, c :: rest =>
    if c = '\n' then
      if sawCR then slGo acc false rest
      else acc.reverse :: slGo [] false rest
    else if c = '\r' then acc.reverse :: slGo [] true rest
    else slGo (c :: acc) false rest

/-- `diff_text.splitlines()` (lines as character lists, terminators dropped). -/
def splitlines (s : String) : List (List Char) :=
  slGo [] false s.data

/-- `"\n".join(...)` (on character-list lines). -/
def joinN : List (List Char) → List Char
  | [] => []
  | [l] => l
  | l :: l2 :: rest => l ++ '\n' :: joinN (l2 :: rest)

/-- Peel a literal pattern off the front of a character list. -/
def dropPre : List Char → List Char → Option (List Char)
  | [], cs => some cs
  | _ :: _, [] => none
  | p :: ps, c :: cs => if p = c then dropPre ps cs else none

/-- `str.startswith` on character lists (`leadsWith pat cs`). -/
def leadsWith : List Char → List Char → Bool
  | [], _ => true
  | _ :: _, [] => false
  | p :: ps, c :: cs => p == c && leadsWith ps cs

/-- `int(...)` on a run of ASCII digits. -/
def natOfDigits (ds : List Char) : Nat :=
  ds.foldl (fun n c => n * 10 + (c.toNat - '0'.toNat)) 0

/--
`FILE_HEADER_RE = ^diff --git a/(\S+) b/(\S+)`, applied with `re.match`
(anchored at the start, arbitrary trailing text allowed).  Each `\S+` is
greedy and ends at the first whitespace character; no backtracking can
succeed elsewhere because the following literal begins with a space.
Returns the two captured groups.
-/
def matchFileHeader (line : List Char) : Option (List Char × List Char) :=
  match dropPre "diff --git a/".data line with
  | none => none
  | some r1 =>
    if (r1.takeWhile (fun c => !isPySpace c)).isEmpty then none
    else
      match r1.dropWhile (fun c => !isPySpace c) with
      | c1 :: c2 :: c3 :: r3 =>
        if c1 = ' ' ∧ c2 = 'b' ∧ c3 = '/' then
          if (r3.takeWhile (fun c => !isPySpace c)).isEmpty then none
          else some (r1.takeWhile (fun c => !isPySpace c),
            r3.takeWhile (fun c => !isPySpace c))
        else none
      | _ => none

/--
`HUNK_HEADER_RE = ^@@ -(\d+),(\d+) \+(\d+),(\d+) @@`, applied with
`re.match`.  Both comma-separated lengths must be present.  Returns
`(old_start, new_start)`; the two length groups are validated but unused
by `parse`.
-/
def matchHunkHeader (line : List Char) : Option (Nat × Nat) :=
  match dropPre "@@ -".data line with
  | none => none
  | some r1 =>
    if (r1.takeWhile Char.isDigit).isEmpty then none
    else
      match r1.dropWhile Char.isDigit with
      | c1 :: r3 =>
        if c1 = ',' then
          if (r3.takeWhile Char.isDigit).isEmpty then none
          else
            match r3.dropWhile Char.isDigit with
            | c2 :: c3 :: r5 =>
              if c2 = ' ' ∧ c3 = '+' then
                if (r5.takeWhile Char.isDigit).isEmpty then none
                else
                  match r5.dropWhile Char.isDigit with
                  | c4 :: r7 =>
                    if c4 = ',' then
                      if (r7.takeWhile Char.isDigit).isEmpty then none
                      else
                        match r7.dropWhile Char.isDigit with
                        | c5 :: c6 :: c7 :: _ =>
                          if c5 = ' ' ∧ c6 = '@' ∧ c7 = '@' then
                            some (natOfDigits (r1.takeWhile Char.isDigit),
                              natOfDigits (r5.takeWhile Char.isDigit))
                          else none
                        | _ => none
                    else none
                  | _ => none
              else none
            | _ => none
        else none
      | _ => none

/-- One reconciled edit: the dict `{"line": .., "old": .., "new": ..}`. -/
structure LineChange where
  line : Nat
  old : Option String
  new : Option String
  deriving DecidableEq

/-- Result of `parse` (the non-empty case): `{"file": .., "changes": ..}`. -/
structure FileDiff where
  file : String
  changes : List LineChange
  deriving DecidableEq

/-- One element of `extract_file_chunks`: `{"file": .., "diff": ..}`. -/
structure RawChunk where
  file : String
  diff : String
  deriving DecidableEq

/-- Loop state of `DiffParser.parse`: the accumulated change list (most
recent first, so Python's `changes[-1]` is the head) and the two optional
line counters. -/
structure ParseState where
  revChanges : List LineChange
  oldNo : Option Nat
  newNo : Option Nat
  deriving DecidableEq

/-- `line.startswith("diff --git")`. -/
def isDiffLine (l : List Char) : Bool :=
  leadsWith "diff --git".data l

/-- One iteration of the `for line in lines` loop of `DiffParser.parse`. -/
def parseStep (st : ParseState) (line : List Char) : ParseState :=
  match matchHunkHeader line with
  | some (os, ns) => { st with oldNo := some os, newNo := some ns }
  | none =>
    if leadsWith "+++".data line || leadsWith "---".data line ||
        leadsWith "diff --git".data line || leadsWith "index ".data line then st
    else
      match st.oldNo, st.newNo with
      | some o, some n =>
        if leadsWith "-".data line then
          { revChanges := ⟨n, some ⟨line.tail⟩, none⟩ :: st.revChanges,
            oldNo := some (o + 1), newNo := some n }
        else if leadsWith "+".data line then
          match st.revChanges with
          | c :: rest =>
            if c.new = none then
              { st with revChanges := { c with new := some ⟨line.tail⟩ } :: rest,
                        newNo := some (n + 1) }
            else
              { st with revChanges := ⟨n, none, some ⟨line.tail⟩⟩ :: c :: rest,
                        newNo := some (n + 1) }
          | [] =>
            { st with revChanges := [⟨n, none, some ⟨line.tail⟩⟩],
                      newNo := some (n + 1) }
        else { st with oldNo := some (o + 1), newNo := some (n + 1) }
      | _, _ => st

/-- `DiffParser.parse`: `.ok none` models the empty dict `{}`, `.error`
models `raise ValueError(...)`. -/
def parse (s : String) : Except String (Option FileDiff) :=
  if isBlank s then .ok none
  else
    match (splitlines s).head? with
    | none => .error "Invalid diff format: missing file header"
    | some l0 =>
      match matchFileHeader l0 with
      | none => .error "Invalid diff format: missing file header"
      | some (_fileA, fileB) =>
        .ok (some ⟨⟨fileB⟩,
          ((((splitlines s).foldl parseStep ⟨[], none, none⟩).revChanges.reverse).filter
            (fun c => c.old.isSome && c.new.isSome))⟩)

/-- The flush step of `parse_multi_file_diff`: `if current_file_lines:
try: ... except ValueError: pass` with the `if file_diff:` truthiness test. -/
def flushP (cur : List (List Char)) : List FileDiff :=
  match cur with
  | [] => []
  | _ :: _ =>
    match parse ⟨joinN cur⟩ with
    | .ok (some fd) => [fd]
    | _ => []

/-- The `for line in diff_text.splitlines()` loop of `parse_multi_file_diff`,
followed by the final flush. -/
def pmfdGo (files : List FileDiff) (cur : List (List Char)) :
    List (List Char) → List FileDiff
  | [] => files ++ flushP cur
  | l :: rest =>
    if isDiffLine l then pmfdGo (files ++ flushP cur) [l] rest
    else pmfdGo files (cur ++ [l]) rest

/-- `DiffParser.parse_multi_file_diff`. -/
def parse_multi_file_diff (s : String) : List FileDiff :=
  if isBlank s then [] else pmfdGo [] [] (splitlines s)

/-- `match.group(2) if match else "unknown"`. -/
def headerName (l : List Char) : String :=
  match matchFileHeader l with
  | some (_, b) => ⟨b⟩
  | none => "unknown"

/-- The flush step of `extract_file_chunks`: `if current_chunk and
current_file:` (list non-emptiness and string truthiness). -/
def flushC (chunks : List RawChunk) (cur : List (List Char))
    (curFile : Option String) : List RawChunk :=
  match curFile with
  | some f => if cur ≠ [] ∧ f ≠ "" then chunks ++ [⟨f, ⟨joinN cur⟩⟩] else chunks
  | none => chunks

/-- The `for line in diff_text.splitlines()` loop of `extract_file_chunks`,
followed by the final flush. -/
def efcGo (chunks : List RawChunk) (cur : List (List Char))
    (curFile : Option String) : List (List Char) → List RawChunk
  | [] => flushC chunks cur curFile
  | l :: rest =>
    if isDiffLine l then
      efcGo (flushC chunks cur curFile) [l] (some (headerName l)) rest
    else efcGo chunks (cur ++ [l]) curFile rest

/-- `DiffParser.extract_file_chunks`. -/
def extract_file_chunks (s : String) : List RawChunk :=
  if isBlank s then [] else efcGo [] [] none (splitlines s)

/-!  Specification-side helpers (not part of the source; used to state the
segment-level characterisations of the two multi-file operations). -/

/-- Split a line list into the text before the first `diff --git` line and
the list of segments, each segment headed by its `diff --git` line. -/
def segAux : List (List Char) → List (List Char) × List (List (List Char))
  | [] => ([], [])
  | l :: rest =>
    if isDiffLine l then ([], (l :: (segAux rest).1) :: (segAux rest).2)
    else (l :: (segAux rest).1, (segAux rest).2)

/-- The chunk a segment yields: file name from the segment's head line,
raw text from rejoining the segment's lines with `"\n"`. -/
def mkChunk (g : List (List Char)) : RawChunk :=
  ⟨headerName (g.headD []), ⟨joinN g⟩⟩

/-- The `FileDiff` a segment yields from `parse`, if any. -/
def segParse (g : List (List Char)) : Option FileDiff :=
  match parse ⟨joinN g⟩ with
  | .ok (some fd) => some fd
  | _ => none

/-- A line (as a character list) free of the modelled line terminators. -/
def nlFree (l : List Char) : Prop :=
  ∀ c ∈ l, c ≠ '\n' ∧ c ≠ '\r'

instance (l : List Char) : Decidable (nlFree l) :=
  List.decidableBAll _ l

/-- A one-hunk diff whose hunk body is a run of removal lines followed by a
run of addition lines (the shape discussed in the pairing rule). -/
def mkRunDiff (olds news : List (List Char)) : String :=
  ⟨joinN (["diff --git a/f b/f".data, "@@ -1,1 +1,1 @@".data] ++
    olds.map (fun o => '-' :: o) ++ news.map (fun a => '+' :: a))⟩

/-- A hunk-header-like line whose two ranges carry no comma-separated
length, e.g. `@@ -5 +5 @@` (the form Git emits for length-1 ranges). -/
def shortHunkLine (d1 d2 : List Char) : List Char :=
  "@@ -".data ++ d1 ++ " +".data ++ d2 ++ " @@".data

/-! ### Lemmas about the `splitlines` model -/

theorem slGo_nil (acc : List Char) (b : Bool) :
    slGo acc b [] = if acc.isEmpty then [] else [acc.reverse] := rfl

theorem slGo_cons (acc : List Char) (b : Bool) (c : Char) (rest : List Char) :
    slGo acc b (c :: rest) =
      if c = '\n' then
        (if b then slGo acc false rest else acc.reverse :: slGo [] false rest)
      else if c = '\r' then acc.reverse :: slGo [] true rest
      else slGo (c :: acc) false rest := rfl

theorem slGo_acc_ne_nil {acc : List Char} (h : acc ≠ []) (b : Bool) (cs : List Char) :
    slGo acc b cs ≠ [] := by
  induction cs generalizing acc b with
  | nil => simp [slGo_nil, h]
  | cons c rest ih =>
    by_cases hn : c = '\n'
    · subst hn
      cases b with
      | true => simpa [slGo_cons] using ih h false
      | false => simp [slGo_cons]
    · by_cases hr : c = '\r'
      · subst hr; simp [slGo_cons, hn]
      · simpa [slGo_cons, hn, hr] using ih (List.cons_ne_nil c acc) false

theorem slGo_nil_eq_nil_iff (cs : List Char) : slGo [] false cs = [] ↔ cs = [] := by
  constructor
  · intro h
    cases cs with
    | nil => rfl
    | cons c rest =>
      exfalso
      by_cases hn : c = '\n'
      · subst hn; simp [slGo_cons] at h
      · by_cases hr : c = '\r'
        · subst hr; simp [slGo_cons, hn] at h
        · simp only [slGo_cons, if_neg hn, if_neg hr] at h
          exact slGo_acc_ne_nil (List.cons_ne_nil c []) false rest h
  · intro h; subst h; rfl

theorem splitlines_eq_nil_iff (s : String) : splitlines s = [] ↔ s.data = [] :=
  slGo_nil_eq_nil_iff s.data

theorem slGo_break {cs : List Char} (h : nlFree cs) (acc rest : List Char) :
    slGo acc false (cs ++ '\n' :: rest) = (acc.reverse ++ cs) :: slGo [] false rest := by
  induction cs generalizing acc with
  | nil => simp [slGo_cons]
  | cons c cs' ih =>
    obtain ⟨hn, hr⟩ := h c (List.mem_cons_self c cs')
    have h' : nlFree cs' := fun x hx => h x (List.mem_cons_of_mem c hx)
    rw [List.cons_append, slGo_cons, if_neg hn, if_neg hr, ih h']
    simp

theorem slGo_final {cs : List Char} (h : nlFree cs) (hne : cs ≠ []) (acc : List Char) :
    slGo acc false cs = [acc.reverse ++ cs] := by
  induction cs generalizing acc with
  | nil => exact absurd rfl hne
  | cons c cs' ih =>
    obtain ⟨hn, hr⟩ := h c (List.mem_cons_self c cs')
    have h' : nlFree cs' := fun x hx => h x (List.mem_cons_of_mem c hx)
    rw [slGo_cons, if_neg hn, if_neg hr]
    cases cs' with
    | nil => simp [slGo_nil]
    | cons d ds => rw [ih h' (List.cons_ne_nil d ds)]; simp

theorem slGo_mem_nlFree {cs acc : List Char} {b : Bool}
    (hacc : ∀ c ∈ acc, c ≠ '\n' ∧ c ≠ '\r') :
    ∀ l ∈ slGo acc b cs, nlFree l := by
  induction cs generalizing acc b with
  | nil =>
    intro l hl
    rw [slGo_nil] at hl
    split at hl
    · simp at hl
    · simp only [List.mem_singleton] at hl
      subst hl
      exact fun c hc => hacc c (List.mem_reverse.mp hc)
  | cons c rest ih =>
    intro l hl
    by_cases hn : c = '\n'
    · subst hn
      cases b with
      | true => exact ih hacc l (by simpa [slGo_cons] using hl)
      | false =>
        rw [slGo_cons, if_pos rfl] at hl
        rcases List.mem_cons.mp hl with h1 | h1
        · subst h1; exact fun x hx => hacc x (List.mem_reverse.mp hx)
        · exact ih (by simp) l h1
    · by_cases hr : c = '\r'
      · subst hr
        rw [slGo_cons, if_neg hn, if_pos rfl] at hl
        rcases List.mem_cons.mp hl with h1 | h1
        · subst h1; exact fun x hx => hacc x (List.mem_reverse.mp hx)
        · exact ih (by simp) l h1
      · rw [slGo_cons, if_neg hn, if_neg hr] at hl
        refine ih ?_ l hl
        intro x hx
        rcases List.mem_cons.mp hx with h1 | h1
        · subst h1; exact ⟨hn, hr⟩
        · exact hacc x h1

theorem splitlines_nlFree (s : String) : ∀ l ∈ splitlines s, nlFree l :=
  slGo_mem_nlFree (by simp)

theorem slGo_all_space {cs acc : List Char} {b : Bool}
    (hacc : acc.all isPySpace = true) (hcs : cs.all isPySpace = true) :
    ∀ l ∈ slGo acc b cs, l.all isPySpace = true := by
  induction cs generalizing acc b with
  | nil =>
    intro l hl
    rw [slGo_nil] at hl
    split at hl
    · simp at hl
    · simp only [List.mem_singleton] at hl
      subst hl
      simpa using hacc
  | cons c rest ih =>
    simp only [List.all_cons, Bool.and_eq_true] at hcs
    intro l hl
    by_cases hn : c = '\n'
    · subst hn
      cases b with
      | true => exact ih hacc hcs.2 l (by simpa [slGo_cons] using hl)
      | false =>
        rw [slGo_cons, if_pos rfl] at hl
        rcases List.mem_cons.mp hl with h1 | h1
        · subst h1; simpa using hacc
        · exact ih (by simp) hcs.2 l h1
    · by_cases hr : c = '\r'
      · subst hr
        rw [slGo_cons, if_neg hn, if_pos rfl] at hl
        rcases List.mem_cons.mp hl with h1 | h1
        · subst h1; simpa using hacc
        · exact ih (by simp) hcs.2 l h1
      · rw [slGo_cons, if_neg hn, if_neg hr] at hl
        exact ih (by simp [hcs.1, hacc]) hcs.2 l hl

/-! ### Lemmas about character-list prefix matching -/

theorem dropPre_cons_ne {p c : Char} {ps cs : List Char} (h : ¬ p = c) :
    dropPre (p :: ps) (c :: cs) = none :=
  if_neg h

theorem dropPre_self_append (p r : List Char) : dropPre p (p ++ r) = some r := by
  induction p with
  | nil => rfl
  | cons c ps ih => simpa [dropPre] using ih

theorem dropPre_eq_some {p cs r : List Char} (h : dropPre p cs = some r) :
    cs = p ++ r := by
  induction p generalizing cs with
  | nil =>
    have h' : cs = r := Option.some.inj h
    simpa using h'
  | cons c ps ih =>
    cases cs with
    | nil => simp [dropPre] at h
    | cons d ds =>
      by_cases hd : c = d
      · subst hd
        simp only [dropPre, if_pos rfl] at h
        simpa using ih h
      · rw [dropPre_cons_ne hd] at h
        exact absurd h (by simp)

theorem leadsWith_append (p r : List Char) : leadsWith p (p ++ r) = true := by
  induction p with
  | nil => rfl
  | cons c ps ih => simpa [leadsWith] using ih

theorem leadsWith_cons_ne {p c : Char} {ps cs : List Char} (h : ¬ p = c) :
    leadsWith (p :: ps) (c :: cs) = false := by
  simp [leadsWith, h]

/-! ### Lemmas about the two regex matchers -/

theorem matchHunkHeader_nil : matchHunkHeader [] = none := rfl

theorem matchHunkHeader_cons_ne {c : Char} (cs : List Char) (h : ¬ c = '@') :
    matchHunkHeader (c :: cs) = none := by
  have h1 : dropPre "@@ -".data (c :: cs) = none := by
    have e : "@@ -".data = '@' :: "@ -".data := rfl
    rw [e]; exact dropPre_cons_ne (fun e' => h e'.symm)
  simp [matchHunkHeader, h1]

theorem matchFileHeader_isDiffLine {l : List Char} {x : List Char × List Char}
    (h : matchFileHeader l = some x) : isDiffLine l = true := by
  cases hd : dropPre "diff --git a/".data l with
  | none => simp [matchFileHeader, hd] at h
  | some r1 =>
    have hl : l = "diff --git a/".data ++ r1 := dropPre_eq_some hd
    have e : "diff --git a/".data = "diff --git".data ++ " a/".data := rfl
    rw [hl, e, List.append_assoc]
    exact leadsWith_append _ _

theorem matchFileHeader_snd_ne_nil {l a b : List Char}
    (h : matchFileHeader l = some (a, b)) : b ≠ [] := by
  simp only [matchFileHeader] at h
  split at h
  · exact absurd h (by simp)
  · split at h
    · exact absurd h (by simp)
    · split at h
      · split at h
        · split at h
          · exact absurd h (by simp)
          · rename_i hg2
            simp only [Option.some.injEq, Prod.mk.injEq] at h
            rw [← h.2]
            simpa [List.isEmpty_iff] using hg2
        · exact absurd h (by simp)
      · exact absurd h (by simp)

theorem headerName_ne_empty (l : List Char) : headerName l ≠ "" := by
  cases m : matchFileHeader l with
  | none => simp [headerName, m]
  | some x =>
    obtain ⟨a, b⟩ := x
    have hb : b ≠ [] := matchFileHeader_snd_ne_nil m
    simp only [headerName, m]
    intro h
    exact hb (congrArg String.data h)

/-! ### Lemmas about `joinN` and re-splitting joined lines -/

theorem joinN_cons_cons (l l2 : List Char) (rest : List (List Char)) :
    joinN (l :: l2 :: rest) = l ++ '\n' :: joinN (l2 :: rest) := rfl

theorem splitlines_joinN {ls : List (List Char)} (hnl : ∀ l ∈ ls, nlFree l)
    (hne : ∀ l ∈ ls, l ≠ []) (h0 : ls ≠ []) :
    slGo [] false (joinN ls) = ls := by
  induction ls with
  | nil => exact absurd rfl h0
  | cons l t ih =>
    cases t with
    | nil =>
      have := slGo_final (hnl l (List.mem_cons_self l []))
        (hne l (List.mem_cons_self l [])) []
      simpa [joinN] using this
    | cons l2 t2 =>
      rw [joinN_cons_cons, slGo_break (hnl l (List.mem_cons_self l _)) [] _]
      rw [ih (fun x hx => hnl x (List.mem_cons_of_mem l hx))
        (fun x hx => hne x (List.mem_cons_of_mem l hx)) (List.cons_ne_nil l2 t2)]
      simp

theorem splitlines_joinN_head {h : List Char} {t : List (List Char)}
    (hnl : nlFree h) (hcase : ¬(h = [] ∧ t = [])) :
    (slGo [] false (joinN (h :: t))).head? = some h := by
  cases t with
  | nil =>
    have hne : h ≠ [] := fun e => hcase ⟨e, rfl⟩
    have e : joinN [h] = h := rfl
    rw [e, slGo_final hnl hne]
    simp
  | cons l2 t2 =>
    rw [joinN_cons_cons, slGo_break hnl]
    simp

/-! ### Blank input produces no `diff --git` line -/

theorem isDiffLine_of_all_space {l : List Char} (h : l.all isPySpace = true) :
    isDiffLine l = false := by
  cases l with
  | nil => decide
  | cons c cs =>
    simp only [List.all_cons, Bool.and_eq_true] at h
    by_cases hc : 'd' = c
    · subst hc
      exact absurd h.1 (by decide)
    · show leadsWith "diff --git".data (c :: cs) = false
      have e : "diff --git".data = 'd' :: "iff --git".data := rfl
      rw [e]
      exact leadsWith_cons_ne hc

/-! ### Structure of `segAux` -/

theorem segAux_nil : segAux [] = ([], []) := rfl

theorem segAux_cons (l : List Char) (rest : List (List Char)) :
    segAux (l :: rest) =
      if isDiffLine l then ([], (l :: (segAux rest).1) :: (segAux rest).2)
      else (l :: (segAux rest).1, (segAux rest).2) := rfl

theorem segAux_snd_cons_diff {l : List Char} {rest : List (List Char)}
    (hD : isDiffLine l = true) :
    (segAux (l :: rest)).2 = (l :: (segAux rest).1) :: (segAux rest).2 := by
  simp [segAux_cons, hD]

theorem segAux_snd_cons_not {l : List Char} {rest : List (List Char)}
    (hD : isDiffLine l = false) :
    (segAux (l :: rest)).2 = (segAux rest).2 := by
  simp [segAux_cons, hD]

theorem segAux_fst_cons_diff {l : List Char} {rest : List (List Char)}
    (hD : isDiffLine l = true) : (segAux (l :: rest)).1 = [] := by
  simp [segAux_cons, hD]

theorem segAux_fst_cons_not {l : List Char} {rest : List (List Char)}
    (hD : isDiffLine l = false) :
    (segAux (l :: rest)).1 = l :: (segAux rest).1 := by
  simp [segAux_cons, hD]

theorem segAux_snd_nil {ls : List (List Char)} (h : ∀ l ∈ ls, isDiffLine l = false) :
    (segAux ls).2 = [] := by
  induction ls with
  | nil => rfl
  | cons l rest ih =>
    rw [segAux_snd_cons_not (h l (List.mem_cons_self l rest))]
    exact ih (fun x hx => h x (List.mem_cons_of_mem l hx))

theorem segAux_fst_eq_takeWhile (ls : List (List Char)) :
    (segAux ls).1 = ls.takeWhile (fun l => !isDiffLine l) := by
  induction ls with
  | nil => rfl
  | cons l rest ih =>
    cases hD : isDiffLine l with
    | true => rw [segAux_fst_cons_diff hD]; simp [List.takeWhile_cons, hD]
    | false => rw [segAux_fst_cons_not hD]; simp [List.takeWhile_cons, hD, ih]

theorem segAux_join (ls : List (List Char)) :
    ((segAux ls).2).flatten = ls.dropWhile (fun l => !isDiffLine l) := by
  induction ls with
  | nil => rfl
  | cons l rest ih =>
    cases hD : isDiffLine l with
    | true =>
      rw [segAux_snd_cons_diff hD, List.flatten_cons, segAux_fst_eq_takeWhile,
        List.cons_append, ih, List.takeWhile_append_dropWhile,
        List.dropWhile_cons]
      simp [hD]
    | false =>
      rw [segAux_snd_cons_not hD, ih, List.dropWhile_cons]
      simp [hD]

theorem segAux_heads (ls : List (List Char)) :
    ((segAux ls).2).map (fun g => g.headD []) = ls.filter isDiffLine := by
  induction ls with
  | nil => rfl
  | cons l rest ih =>
    cases hD : isDiffLine l with
    | true =>
      rw [segAux_snd_cons_diff hD, List.map_cons, ih, List.filter_cons]
      simp [hD]
    | false =>
      rw [segAux_snd_cons_not hD, ih, List.filter_cons]
      simp [hD]

theorem segAux_groups {ls : List (List Char)} :
    ∀ g ∈ (segAux ls).2, ∃ l p, g = l :: p ∧ isDiffLine l = true := by
  induction ls with
  | nil => simp [segAux_nil]
  | cons l rest ih =>
    intro g hg
    cases hD : isDiffLine l with
    | true =>
      rw [segAux_snd_cons_diff hD] at hg
      rcases List.mem_cons.mp hg with h1 | h1
      · exact ⟨l, (segAux rest).1, h1, hD⟩
      · exact ih g h1
    | false =>
      rw [segAux_snd_cons_not hD] at hg
      exact ih g hg

/-! ### Boundary behaviour of `takeWhile`/`dropWhile` on an all-true block -/

theorem takeWhile_all_append {p : Char → Bool} {xs : List Char}
    (h : ∀ c ∈ xs, p c = true) {y : Char} (hy : p y = false) (ys : List Char) :
    (xs ++ y :: ys).takeWhile p = xs ∧ (xs ++ y :: ys).dropWhile p = y :: ys := by
  induction xs with
  | nil => simp [List.takeWhile_cons, List.dropWhile_cons, hy]
  | cons x xs' ih =>
    have hx := h x (List.mem_cons_self x xs')
    have ih' := ih (fun c hc => h c (List.mem_cons_of_mem x hc))
    simp [List.takeWhile_cons, List.dropWhile_cons, hx, ih'.1, ih'.2]

/-! ### Segment-level characterisation of `extract_file_chunks` -/

theorem flushC_none (chunks : List RawChunk) (cur : List (List Char)) :
    flushC chunks cur none = chunks := rfl

theorem flushC_some {cur : List (List Char)} {f : String} (chunks : List RawChunk)
    (hg : cur ≠ []) (hf : f ≠ "") :
    flushC chunks cur (some f) = chunks ++ [⟨f, ⟨joinN cur⟩⟩] := by
  simp [flushC, hg, hf]

theorem efcGo_nil (chunks : List RawChunk) (cur : List (List Char))
    (curFile : Option String) :
    efcGo chunks cur curFile [] = flushC chunks cur curFile := rfl

theorem efcGo_cons (chunks : List RawChunk) (cur : List (List Char))
    (curFile : Option String) (l : List Char) (rest : List (List Char)) :
    efcGo chunks cur curFile (l :: rest) =
      if isDiffLine l then
        efcGo (flushC chunks cur curFile) [l] (some (headerName l)) rest
      else efcGo chunks (cur ++ [l]) curFile rest := rfl

theorem efcGo_seg {lines : List (List Char)} :
    ∀ (chunks : List RawChunk) (g : List (List Char)) (f : String),
      g ≠ [] → f ≠ "" →
      efcGo chunks g (some f) lines =
        chunks ++ (⟨f, ⟨joinN (g ++ (segAux lines).1)⟩⟩ : RawChunk) ::
          ((segAux lines).2).map mkChunk := by
  induction lines with
  | nil =>
    intro chunks g f hg hf
    rw [efcGo_nil, flushC_some chunks hg hf]
    simp [segAux_nil]
  | cons l rest ih =>
    intro chunks g f hg hf
    cases hD : isDiffLine l with
    | true =>
      rw [efcGo_cons, if_pos (by simp [hD]), flushC_some chunks hg hf,
        ih _ [l] _ (List.cons_ne_nil l []) (headerName_ne_empty l),
        segAux_snd_cons_diff hD, segAux_fst_cons_diff hD]
      simp [mkChunk]
    | false =>
      rw [efcGo_cons, if_neg (by simp [hD]), ih _ (g ++ [l]) _ (by simp) hf,
        segAux_snd_cons_not hD, segAux_fst_cons_not hD]
      simp

theorem efcGo_none {lines : List (List Char)} :
    ∀ (chunks : List RawChunk) (cur : List (List Char)),
      efcGo chunks cur none lines = chunks ++ ((segAux lines).2).map mkChunk := by
  induction lines with
  | nil =>
    intro chunks cur
    rw [efcGo_nil, flushC_none]
    simp [segAux_nil]
  | cons l rest ih =>
    intro chunks cur
    cases hD : isDiffLine l with
    | true =>
      rw [efcGo_cons, if_pos (by simp [hD]), flushC_none,
        efcGo_seg _ [l] _ (List.cons_ne_nil l []) (headerName_ne_empty l),
        segAux_snd_cons_diff hD]
      simp [mkChunk]
    | false =>
      rw [efcGo_cons, if_neg (by simp [hD]), ih, segAux_snd_cons_not hD]

theorem efc_segments (s : String) :
    extract_file_chunks s = ((segAux (splitlines s)).2).map mkChunk := by
  unfold extract_file_chunks
  by_cases hb : isBlank s = true
  · rw [if_pos hb]
    have hall : ∀ l ∈ splitlines s, l.all isPySpace = true :=
      slGo_all_space (by simp) hb
    rw [segAux_snd_nil (fun l hl => isDiffLine_of_all_space (hall l hl))]
    rfl
  · rw [if_neg hb]
    exact efcGo_none [] []

/-! ### Segment-level characterisation of `parse_multi_file_diff` -/

theorem filterMap_cons_toList {α β : Type} (f : α → Option β) (a : α) (as : List α) :
    List.filterMap f (a :: as) = (f a).toList ++ List.filterMap f as := by
  cases h : f a <;> simp [List.filterMap_cons, h]

theorem pmfdGo_nil (files : List FileDiff) (cur : List (List Char)) :
    pmfdGo files cur [] = files ++ flushP cur := rfl

theorem pmfdGo_cons (files : List FileDiff) (cur : List (List Char))
    (l : List Char) (rest : List (List Char)) :
    pmfdGo files cur (l :: rest) =
      if isDiffLine l then pmfdGo (files ++ flushP cur) [l] rest
      else pmfdGo files (cur ++ [l]) rest := rfl

theorem flushP_nil : flushP [] = [] := rfl

theorem flushP_ne {cur : List (List Char)} (h : cur ≠ []) :
    flushP cur = (segParse cur).toList := by
  cases cur with
  | nil => exact absurd rfl h
  | cons c t =>
    cases hp : parse ⟨joinN (c :: t)⟩ with
    | error e => simp [flushP, segParse, hp]
    | ok o => cases o <;> simp [flushP, segParse, hp]

theorem flushP_no_header {cur : List (List Char)} (hnl : ∀ l ∈ cur, nlFree l)
    (hnd : ∀ l ∈ cur, isDiffLine l = false) : flushP cur = [] := by
  cases cur with
  | nil => rfl
  | cons h t =>
    by_cases hb : isBlank ⟨joinN (h :: t)⟩ = true
    · have hp : parse ⟨joinN (h :: t)⟩ = .ok none := by
        unfold parse; rw [if_pos hb]
      simp [flushP, hp]
    · have hcase : ¬(h = [] ∧ t = []) := by
        rintro ⟨rfl, rfl⟩
        exact hb (by decide)
      have hhead : (splitlines ⟨joinN (h :: t)⟩).head? = some h :=
        splitlines_joinN_head (hnl h (List.mem_cons_self h t)) hcase
      have hmf : matchFileHeader h = none := by
        cases m : matchFileHeader h with
        | none => rfl
        | some x =>
          exact absurd (matchFileHeader_isDiffLine m)
            (by simp [hnd h (List.mem_cons_self h t)])
      have hp : parse ⟨joinN (h :: t)⟩ =
          .error "Invalid diff format: missing file header" := by
        unfold parse
        rw [if_neg hb]
        simp only [hhead, hmf]
      simp [flushP, hp]

theorem pmfdGo_seg {lines : List (List Char)} :
    ∀ (files : List FileDiff) (g : List (List Char)), g ≠ [] →
      pmfdGo files g lines =
        files ++ (segParse (g ++ (segAux lines).1)).toList ++
          ((segAux lines).2).filterMap segParse := by
  induction lines with
  | nil =>
    intro files g hg
    rw [pmfdGo_nil, flushP_ne hg]
    simp [segAux_nil]
  | cons l rest ih =>
    intro files g hg
    cases hD : isDiffLine l with
    | true =>
      rw [pmfdGo_cons, if_pos (by simp [hD]), flushP_ne hg,
        ih _ [l] (List.cons_ne_nil l []),
        segAux_snd_cons_diff hD, segAux_fst_cons_diff hD]
      simp [filterMap_cons_toList]
    | false =>
      rw [pmfdGo_cons, if_neg (by simp [hD]), ih _ (g ++ [l]) (by simp),
        segAux_snd_cons_not hD, segAux_fst_cons_not hD]
      simp

theorem pmfdGo_pre {lines : List (List Char)} :
    ∀ (files : List FileDiff) (cur : List (List Char)),
      (∀ l ∈ cur, nlFree l) → (∀ l ∈ cur, isDiffLine l = false) →
      (∀ l ∈ lines, nlFree l) →
      pmfdGo files cur lines = files ++ ((segAux lines).2).filterMap segParse := by
  induction lines with
  | nil =>
    intro files cur h1 h2 _h3
    rw [pmfdGo_nil, flushP_no_header h1 h2]
    simp [segAux_nil]
  | cons l rest ih =>
    intro files cur h1 h2 h3
    cases hD : isDiffLine l with
    | true =>
      rw [pmfdGo_cons, if_pos (by simp [hD]), flushP_no_header h1 h2,
        pmfdGo_seg _ [l] (List.cons_ne_nil l []),
        segAux_snd_cons_diff hD]
      simp [filterMap_cons_toList]
    | false =>
      have h1' : ∀ x ∈ cur ++ [l], nlFree x := by
        intro x hx
        rcases List.mem_append.mp hx with hx | hx
        · exact h1 x hx
        · simp only [List.mem_singleton] at hx
          subst hx
          exact h3 x (List.mem_cons_self x rest)
      have h2' : ∀ x ∈ cur ++ [l], isDiffLine x = false := by
        intro x hx
        rcases List.mem_append.mp hx with hx | hx
        · exact h2 x hx
        · simp only [List.mem_singleton] at hx
          subst hx
          exact hD
      rw [pmfdGo_cons, if_neg (by simp [hD]),
        ih files (cur ++ [l]) h1' h2' (fun x hx => h3 x (List.mem_cons_of_mem l hx)),
        segAux_snd_cons_not hD]

theorem pmfd_segments (s : String) :
    parse_multi_file_diff s = ((segAux (splitlines s)).2).filterMap segParse := by
  unfold parse_multi_file_diff
  by_cases hb : isBlank s = true
  · rw [if_pos hb]
    have hall : ∀ l ∈ splitlines s, l.all isPySpace = true :=
      slGo_all_space (by simp) hb
    rw [segAux_snd_nil (fun l hl => isDiffLine_of_all_space (hall l hl))]
    rfl
  · rw [if_neg hb]
    exact pmfdGo_pre [] [] (by simp) (by simp) (splitlines_nlFree s)

/-! ### Claim theorems -/

/-- C5: `parse` on the Scenario A input returns file `file1.py` and the
single replacement at line 2 pairing the removed and added print lines. -/
theorem c5_scenario_a :
    parse "diff --git a/file1.py b/file1.py\nindex 83db48f..f735c8b 100644\n--- a/file1.py\n+++ b/file1.py\n@@ -1,4 +1,4 @@\n def hello_world():\n-    print(\"Hello, world!\")\n+    print(\"Hello, universe!\")\n " =
      .ok (some ⟨"file1.py",
        [⟨2, some "    print(\"Hello, world!\")",
          some "    print(\"Hello, universe!\")"⟩]⟩) := rfl

/-- C6: on empty or whitespace-only input, `parse` returns the empty result
and the two multi-file operations return empty sequences; none raises. -/
theorem c6_blank_input (s : String) (h : isBlank s = true) :
    parse s = .ok none ∧ parse_multi_file_diff s = [] ∧
      extract_file_chunks s = [] := by
  refine ⟨?_, ?_, ?_⟩ <;>
    simp [parse, parse_multi_file_diff, extract_file_chunks, h]

/-- C6 witness: the whitespace-only input `" \t\n "`. -/
theorem c6_blank_input_witness :
    isBlank " \t\n " = true ∧
      (parse " \t\n " = .ok none ∧ parse_multi_file_diff " \t\n " = [] ∧
        extract_file_chunks " \t\n " = []) :=
  ⟨by decide, c6_blank_input " \t\n " (by decide)⟩

/-- C3 counterexample: an input whose first line is blank and whose first
non-trivial line is a well-formed file header still raises (the source
matches the header pattern against `lines[0]` only). -/
theorem c3_counterexample :
    parse "\ndiff --git a/a.py b/a.py\n@@ -1,1 +1,1 @@\n-x\n+y" =
        .error "Invalid diff format: missing file header" ∧
      isBlank "\ndiff --git a/a.py b/a.py\n@@ -1,1 +1,1 @@\n-x\n+y" = false ∧
      matchFileHeader "diff --git a/a.py b/a.py".data =
        some ("a.py".data, "a.py".data) :=
  ⟨rfl, rfl, rfl⟩

/-- C3 (amended): `parse` raises the format error exactly when the input is
not whitespace-only and its very first line — blank lines included — fails
the file-header pattern. -/
theorem c3_error_iff (s : String) :
    parse s = .error "Invalid diff format: missing file header" ↔
      (isBlank s = false ∧ matchFileHeader ((splitlines s).headD []) = none) := by
  by_cases hb : isBlank s = true
  · simp [parse, hb]
  · have hb' : isBlank s = false := eq_false_of_ne_true hb
    cases hsp : splitlines s with
    | nil =>
      exfalso
      exact hb (by simp [isBlank, (splitlines_eq_nil_iff s).mp hsp])
    | cons l0 t =>
      cases hm : matchFileHeader l0 with
      | none =>
        have hp : parse s = .error "Invalid diff format: missing file header" := by
          unfold parse
          rw [if_neg hb]
          simp only [hsp, List.head?_cons, hm]
        simp [hp, hsp, hm, hb']
      | some x =>
        obtain ⟨fa, fb⟩ := x
        have hp : parse s = .ok (some ⟨⟨fb⟩,
            ((((splitlines s).foldl parseStep ⟨[], none, none⟩).revChanges.reverse).filter
              (fun c => c.old.isSome && c.new.isSome))⟩) := by
          unfold parse
          rw [if_neg hb]
          simp only [hsp, List.head?_cons, hm]
        simp [hp, hsp, hm]

/-- C4 counterexample: for a one-segment input ending in a newline, the
chunk's `diff` field is not the segment's raw text (the trailing line
terminator is dropped by split-and-rejoin). -/
theorem c4_counterexample :
    extract_file_chunks "diff --git a/x b/x\nfoo\n" =
        [⟨"x", "diff --git a/x b/x\nfoo"⟩] ∧
      "diff --git a/x b/x\nfoo" ≠ "diff --git a/x b/x\nfoo\n" :=
  ⟨rfl, by decide⟩

/-- C4 (amended): each chunk's `diff` field is the segment's lines re-joined
with `"\n"` (line terminators normalised, trailing terminator dropped), not
the verbatim original text. -/
theorem c4_diff_normalized (s : String) :
    (extract_file_chunks s).map RawChunk.diff =
      ((segAux (splitlines s)).2).map (fun g => (⟨joinN g⟩ : String)) := by
  rw [efc_segments, List.map_map]
  rfl

/-- C7: with N `diff --git` lines in the input, `parse_multi_file_diff`
returns at most N entries (exactly the segments `parse` accepts) and
`extract_file_chunks` returns exactly N chunks, in input order, with each
chunk's file taken from its header line (`"unknown"` on a failed match). -/
theorem c7_segment_counts (s : String) :
    parse_multi_file_diff s = ((segAux (splitlines s)).2).filterMap segParse ∧
      (parse_multi_file_diff s).length ≤
        ((splitlines s).filter isDiffLine).length ∧
      (extract_file_chunks s).length = ((splitlines s).filter isDiffLine).length ∧
      (extract_file_chunks s).map RawChunk.file =
        ((splitlines s).filter isDiffLine).map headerName := by
  have hgs : ((segAux (splitlines s)).2).length =
      ((splitlines s).filter isDiffLine).length := by
    rw [← segAux_heads]
    simp
  refine ⟨pmfd_segments s, ?_, ?_, ?_⟩
  · rw [pmfd_segments, ← hgs]
    exact List.length_filterMap_le _ _
  · rw [efc_segments, List.length_map, hgs]
  · rw [efc_segments, List.map_map, ← segAux_heads, List.map_map]
    rfl

/-- C8: every produced `FileDiff` has a non-empty file name, and every
retained change is a replacement (both `old` and `new` present). -/
theorem c8_result_invariants (s : String) (fd : FileDiff)
    (h : parse s = .ok (some fd)) :
    fd.file ≠ "" ∧ ∀ c ∈ fd.changes, c.old ≠ none ∧ c.new ≠ none := by
  unfold parse at h
  by_cases hb : isBlank s = true
  · rw [if_pos hb] at h
    exact absurd h (by simp)
  · rw [if_neg hb] at h
    cases hsp : splitlines s with
    | nil => simp [hsp] at h
    | cons l0 t =>
      simp only [hsp, List.head?_cons] at h
      cases hm : matchFileHeader l0 with
      | none => simp [hm] at h
      | some x =>
        obtain ⟨fa, fb⟩ := x
        simp only [hm, Except.ok.injEq, Option.some.injEq] at h
        subst h
        constructor
        · intro he
          exact matchFileHeader_snd_ne_nil hm (congrArg String.data he)
        · intro c hc
          have := (List.mem_filter.mp hc).2
          simp only [Bool.and_eq_true, Option.isSome_iff_ne_none] at this
          exact this

/-- C8 witness: the Scenario A input produces a `FileDiff` satisfying the
invariants. -/
theorem c8_result_invariants_witness :
    (⟨"f.py", [⟨1, some "a", some "b"⟩]⟩ : FileDiff).file ≠ "" ∧
      ∀ c ∈ (⟨"f.py", [⟨1, some "a", some "b"⟩]⟩ : FileDiff).changes,
        c.old ≠ none ∧ c.new ≠ none :=
  c8_result_invariants "diff --git a/f.py b/f.py\n@@ -1,1 +1,1 @@\n-a\n+b"
    ⟨"f.py", [⟨1, some "a", some "b"⟩]⟩ rfl

/-- C10: `extract_file_chunks` keeps exactly the lines from the first
`diff --git` line onwards (text before it appears in no chunk), and every
`diff --git` line starts a chunk, whose file is `"unknown"` when the full
header pattern fails on that line. -/
theorem c10_chunking (s : String) :
    extract_file_chunks s = ((segAux (splitlines s)).2).map mkChunk ∧
      ((segAux (splitlines s)).2).flatten =
        (splitlines s).dropWhile (fun l => !isDiffLine l) ∧
      ∀ g ∈ (segAux (splitlines s)).2, ∃ l p, g = l :: p ∧ isDiffLine l = true ∧
        (matchFileHeader l = none → (mkChunk g).file = "unknown") := by
  refine ⟨efc_segments s, segAux_join _, ?_⟩
  intro g hg
  obtain ⟨l, p, rfl, hD⟩ := segAux_groups g hg
  exact ⟨l, p, rfl, hD, fun hm => by simp [mkChunk, headerName, hm]⟩

/-- C2: after a hunk header has set the counters, an addition line (one the
loop classifies as an addition, i.e. starting with `+` but not with the
skipped `+++` metadata marker) fills the most recently appended change iff
its `new` is still absent (keeping that change's anchor), otherwise appends
a fresh change anchored at the current `newLineNo`; `newLineNo` advances by
one and `oldLineNo` is unchanged. -/
theorem c2_addition_step (st : ParseState) (o n : Nat) (line : List Char)
    (ho : st.oldNo = some o) (hn : st.newNo = some n)
    (hplus : leadsWith "+".data line = true)
    (hmeta : leadsWith "+++".data line = false) :
    (parseStep st line).oldNo = some o ∧
    (parseStep st line).newNo = some (n + 1) ∧
    (match st.revChanges with
      | c :: rest =>
        if c.new = none then
          (parseStep st line).revChanges = { c with new := some ⟨line.tail⟩ } :: rest
        else (parseStep st line).revChanges =
          (⟨n, none, some ⟨line.tail⟩⟩ : LineChange) :: st.revChanges
      | [] => (parseStep st line).revChanges = [⟨n, none, some ⟨line.tail⟩⟩]) := by
  cases line with
  | nil => exact absurd hplus (by decide)
  | cons c tl =>
    have hc : '+' = c := by
      have e : "+".data = ['+'] := rfl
      rw [e] at hplus
      simpa [leadsWith] using hplus
    subst hc
    have hh : matchHunkHeader ('+' :: tl) = none :=
      matchHunkHeader_cons_ne tl (by decide)
    have h1 : leadsWith "---".data ('+' :: tl) = false := by
      have e : "---".data = '-' :: "--".data := rfl
      rw [e]; exact leadsWith_cons_ne (by decide)
    have h2 : leadsWith "diff --git".data ('+' :: tl) = false := by
      have e : "diff --git".data = 'd' :: "iff --git".data := rfl
      rw [e]; exact leadsWith_cons_ne (by decide)
    have h3 : leadsWith "index ".data ('+' :: tl) = false := by
      have e : "index ".data = 'i' :: "ndex ".data := rfl
      rw [e]; exact leadsWith_cons_ne (by decide)
    have h4 : leadsWith "-".data ('+' :: tl) = false := by
      have e : "-".data = ['-'] := rfl
      rw [e]; exact leadsWith_cons_ne (by decide)
    obtain ⟨rcs, so, sn⟩ := st
    have ho' : so = some o := ho
    have hn' : sn = some n := hn
    subst ho' hn'
    cases rcs with
    | nil =>
      refine ⟨?_, ?_, ?_⟩ <;>
        simp [parseStep, hh, hmeta, h1, h2, h3, h4, hplus]
    | cons c0 rest =>
      by_cases hnew : c0.new = none
      · refine ⟨?_, ?_, ?_⟩ <;>
          simp [parseStep, hh, hmeta, h1, h2, h3, h4, hplus, hnew]
      · refine ⟨?_, ?_, ?_⟩ <;>
          simp [parseStep, hh, hmeta, h1, h2, h3, h4, hplus, hnew]

/-- C2 witness: a concrete addition line `+y` filling a pending removal. -/
theorem c2_addition_step_witness :
    (parseStep ⟨[⟨2, some "x", none⟩], some 3, some 5⟩ "+y".data).newNo =
      some (5 + 1) :=
  (c2_addition_step ⟨[⟨2, some "x", none⟩], some 3, some 5⟩ 3 5 "+y".data
    rfl rfl (by decide) (by decide)).2.1

/-- C9: a hunk-header-like line without the two comma-separated lengths
(e.g. `@@ -5 +5 @@`) is not recognised by `HUNK_HEADER_RE`; before any
recognised hunk header it is skipped leaving the counters unset, and after
one it is treated as a context line, advancing both counters by one. -/
theorem c9_short_hunk_header (d1 d2 : List Char) (h1 : d1 ≠ [])
    (h2 : ∀ c ∈ d1, c.isDigit = true) (h3 : d2 ≠ [])
    (h4 : ∀ c ∈ d2, c.isDigit = true) (rcs : List LineChange) (o n : Nat) :
    matchHunkHeader (shortHunkLine d1 d2) = none ∧
    parseStep ⟨rcs, none, none⟩ (shortHunkLine d1 d2) = ⟨rcs, none, none⟩ ∧
    parseStep ⟨rcs, some o, some n⟩ (shortHunkLine d1 d2) =
      ⟨rcs, some (o + 1), some (n + 1)⟩ := by
  have e1 : shortHunkLine d1 d2 =
      "@@ -".data ++ (d1 ++ (' ' :: '+' :: (d2 ++ " @@".data))) := by
    unfold shortHunkLine
    simp [List.append_assoc]
  obtain ⟨ht, hdw⟩ := takeWhile_all_append h2
    (show Char.isDigit ' ' = false by decide) ('+' :: (d2 ++ " @@".data))
  have hE : d1.isEmpty = false := by
    cases d1 with
    | nil => exact absurd rfl h1
    | cons a b => rfl
  have hm : matchHunkHeader (shortHunkLine d1 d2) = none := by
    rw [e1]
    simp only [matchHunkHeader, dropPre_self_append]
    rw [ht, hdw]
    simp [hE]
  have e2 : shortHunkLine d1 d2 =
      '@' :: ("@ -".data ++ (d1 ++ (' ' :: '+' :: (d2 ++ " @@".data)))) := by
    rw [e1]; rfl
  have m1 : leadsWith "+++".data (shortHunkLine d1 d2) = false := by
    rw [e2]
    have e : "+++".data = '+' :: "++".data := rfl
    rw [e]; exact leadsWith_cons_ne (by decide)
  have m2 : leadsWith "---".data (shortHunkLine d1 d2) = false := by
    rw [e2]
    have e : "---".data = '-' :: "--".data := rfl
    rw [e]; exact leadsWith_cons_ne (by decide)
  have m3 : leadsWith "diff --git".data (shortHunkLine d1 d2) = false := by
    rw [e2]
    have e : "diff --git".data = 'd' :: "iff --git".data := rfl
    rw [e]; exact leadsWith_cons_ne (by decide)
  have m4 : leadsWith "index ".data (shortHunkLine d1 d2) = false := by
    rw [e2]
    have e : "index ".data = 'i' :: "ndex ".data := rfl
    rw [e]; exact leadsWith_cons_ne (by decide)
  have m5 : leadsWith "-".data (shortHunkLine d1 d2) = false := by
    rw [e2]
    have e : "-".data = ['-'] := rfl
    rw [e]; exact leadsWith_cons_ne (by decide)
  have m6 : leadsWith "+".data (shortHunkLine d1 d2) = false := by
    rw [e2]
    have e : "+".data = ['+'] := rfl
    rw [e]; exact leadsWith_cons_ne (by decide)
  refine ⟨hm, ?_, ?_⟩
  · simp [parseStep, hm, m1, m2, m3, m4]
  · simp [parseStep, hm, m1, m2, m3, m4, m5, m6]

/-! ### Step and fold lemmas for a removal run followed by an addition run -/

theorem parseStep_removal (rcs : List LineChange) (o n : Nat) {x : List Char}
    (hx : leadsWith "--".data x = false) :
    parseStep ⟨rcs, some o, some n⟩ ('-' :: x) =
      ⟨(⟨n, some ⟨x⟩, none⟩ : LineChange) :: rcs, some (o + 1), some n⟩ := by
  have hh : matchHunkHeader ('-' :: x) = none :=
    matchHunkHeader_cons_ne x (by decide)
  have m1 : leadsWith "+++".data ('-' :: x) = false := by
    have e : "+++".data = '+' :: "++".data := rfl
    rw [e]; exact leadsWith_cons_ne (by decide)
  have m2 : leadsWith "---".data ('-' :: x) = false := by
    have e : "---".data = '-' :: "--".data := rfl
    rw [e]
    simp [leadsWith, hx]
  have m3 : leadsWith "diff --git".data ('-' :: x) = false := by
    have e : "diff --git".data = 'd' :: "iff --git".data := rfl
    rw [e]; exact leadsWith_cons_ne (by decide)
  have m4 : leadsWith "index ".data ('-' :: x) = false := by
    have e : "index ".data = 'i' :: "ndex ".data := rfl
    rw [e]; exact leadsWith_cons_ne (by decide)
  have m5 : leadsWith "-".data ('-' :: x) = true := by
    have e : "-".data = ['-'] := rfl
    rw [e]; simp [leadsWith]
  simp [parseStep, hh, m1, m2, m3, m4, m5]

theorem parseStep_add_fill {c0 : LineChange} (hnew : c0.new = none)
    (rest : List LineChange) (o n : Nat) {y : List Char}
    (hy : leadsWith "++".data y = false) :
    parseStep ⟨c0 :: rest, some o, some n⟩ ('+' :: y) =
      ⟨{ c0 with new := some ⟨y⟩ } :: rest, some o, some (n + 1)⟩ := by
  have hh : matchHunkHeader ('+' :: y) = none :=
    matchHunkHeader_cons_ne y (by decide)
  have m1 : leadsWith "+++".data ('+' :: y) = false := by
    have e : "+++".data = '+' :: "++".data := rfl
    rw [e]
    simp [leadsWith, hy]
  have m2 : leadsWith "---".data ('+' :: y) = false := by
    have e : "---".data = '-' :: "--".data := rfl
    rw [e]; exact leadsWith_cons_ne (by decide)
  have m3 : leadsWith "diff --git".data ('+' :: y) = false := by
    have e : "diff --git".data = 'd' :: "iff --git".data := rfl
    rw [e]; exact leadsWith_cons_ne (by decide)
  have m4 : leadsWith "index ".data ('+' :: y) = false := by
    have e : "index ".data = 'i' :: "ndex ".data := rfl
    rw [e]; exact leadsWith_cons_ne (by decide)
  have m5 : leadsWith "-".data ('+' :: y) = false := by
    have e : "-".data = ['-'] := rfl
    rw [e]; exact leadsWith_cons_ne (by decide)
  have m6 : leadsWith "+".data ('+' :: y) = true := by
    have e : "+".data = ['+'] := rfl
    rw [e]; simp [leadsWith]
  simp [parseStep, hh, m1, m2, m3, m4, m5, m6, hnew]

theorem parseStep_add_append {c0 : LineChange} (hnew : ¬ c0.new = none)
    (rest : List LineChange) (o n : Nat) {y : List Char}
    (hy : leadsWith "++".data y = false) :
    parseStep ⟨c0 :: rest, some o, some n⟩ ('+' :: y) =
      ⟨(⟨n, none, some ⟨y⟩⟩ : LineChange) :: c0 :: rest, some o, some (n + 1)⟩ := by
  have hh : matchHunkHeader ('+' :: y) = none :=
    matchHunkHeader_cons_ne y (by decide)
  have m1 : leadsWith "+++".data ('+' :: y) = false := by
    have e : "+++".data = '+' :: "++".data := rfl
    rw [e]
    simp [leadsWith, hy]
  have m2 : leadsWith "---".data ('+' :: y) = false := by
    have e : "---".data = '-' :: "--".data := rfl
    rw [e]; exact leadsWith_cons_ne (by decide)
  have m3 : leadsWith "diff --git".data ('+' :: y) = false := by
    have e : "diff --git".data = 'd' :: "iff --git".data := rfl
    rw [e]; exact leadsWith_cons_ne (by decide)
  have m4 : leadsWith "index ".data ('+' :: y) = false := by
    have e : "index ".data = 'i' :: "ndex ".data := rfl
    rw [e]; exact leadsWith_cons_ne (by decide)
  have m5 : leadsWith "-".data ('+' :: y) = false := by
    have e : "-".data = ['-'] := rfl
    rw [e]; exact leadsWith_cons_ne (by decide)
  have m6 : leadsWith "+".data ('+' :: y) = true := by
    have e : "+".data = ['+'] := rfl
    rw [e]; simp [leadsWith]
  simp [parseStep, hh, m1, m2, m3, m4, m5, m6, hnew]

theorem foldl_removals (olds : List (List Char))
    (h : ∀ x ∈ olds, leadsWith "--".data x = false) :
    ∀ (rcs : List LineChange) (o n : Nat),
      List.foldl parseStep ⟨rcs, some o, some n⟩ (olds.map (fun x => '-' :: x)) =
        ⟨(olds.reverse.map (fun x => (⟨n, some ⟨x⟩, none⟩ : LineChange))) ++ rcs,
          some (o + olds.length), some n⟩ := by
  induction olds with
  | nil => intro rcs o n; simp
  | cons x xs ih =>
    intro rcs o n
    rw [List.map_cons, List.foldl_cons,
      parseStep_removal rcs o n (h x (List.mem_cons_self x xs)),
      ih (fun z hz => h z (List.mem_cons_of_mem x hz))]
    have hlen : o + 1 + xs.length = o + (x :: xs).length := by
      simp [List.length_cons]
      omega
    rw [hlen]
    simp [List.append_assoc]

theorem foldl_additions (adds : List (List Char))
    (h : ∀ y ∈ adds, leadsWith "++".data y = false) :
    ∀ (c0 : LineChange), ¬ c0.new = none →
      ∀ (rest : List LineChange) (o n : Nat),
      ∃ ins : List LineChange,
        List.foldl parseStep ⟨c0 :: rest, some o, some n⟩
            (adds.map (fun y => '+' :: y)) =
          ⟨ins ++ c0 :: rest, some o, some (n + adds.length)⟩ ∧
        ∀ e ∈ ins, e.old = none := by
  induction adds with
  | nil =>
    intro c0 h0 rest o n
    exact ⟨[], by simp, by simp⟩
  | cons y ys ih =>
    intro c0 h0 rest o n
    rw [List.map_cons, List.foldl_cons,
      parseStep_add_append h0 rest o n (h y (List.mem_cons_self y ys))]
    obtain ⟨ins, heq, hins⟩ := ih (fun z hz => h z (List.mem_cons_of_mem y hz))
      ⟨n, none, some ⟨y⟩⟩ (by simp) (c0 :: rest) o (n + 1)
    refine ⟨ins ++ [⟨n, none, some ⟨y⟩⟩], ?_, ?_⟩
    · rw [heq]
      have hlen : n + 1 + ys.length = n + (y :: ys).length := by
        simp [List.length_cons]
        omega
      rw [hlen]
      simp [List.append_assoc]
    · intro e he
      rcases List.mem_append.mp he with he | he
      · exact hins e he
      · simp only [List.mem_singleton] at he
        subst he
        rfl

theorem getLastD_append_singleton {α : Type} (l : List α) (a d : α) :
    (l ++ [a]).getLastD d = a := by
  induction l with
  | nil => rfl
  | cons x xs ih =>
    cases xs with
    | nil => rfl
    | cons z zs => simpa using ih

theorem filter_mods_nil {l : List LineChange}
    (h : ∀ e ∈ l, e.old = none ∨ e.new = none) :
    l.filter (fun c => c.old.isSome && c.new.isSome) = [] := by
  induction l with
  | nil => rfl
  | cons e t ih =>
    have hp : (e.old.isSome && e.new.isSome) = false := by
      rcases h e (List.mem_cons_self e t) with he | he <;> simp [he]
    rw [List.filter_cons]
    simp only [hp, Bool.false_eq_true, if_false]
    exact ih (fun z hz => h z (List.mem_cons_of_mem e hz))

/-- C1 counterexample: for 3 removals followed by 1 addition, the retained
replacement pairs the THIRD (most recent) removal's old content with the
addition, not the first removal's as positional pairing would give. -/
theorem c1_counterexample :
    parse "diff --git a/f.py b/f.py\n@@ -1,3 +1,1 @@\n-aaa\n-bbb\n-ccc\n+ddd" =
        .ok (some ⟨"f.py", [⟨1, some "ccc", some "ddd"⟩]⟩) ∧
      (⟨1, some "ccc", some "ddd"⟩ : LineChange) ≠ ⟨1, some "aaa", some "ddd"⟩ :=
  ⟨rfl, by decide⟩

/-- C1 (amended): in a hunk whose body is k ≥ 1 removal lines followed by
m ≥ 1 addition lines, exactly one replacement is kept: the LAST removal's
old content paired with the FIRST addition's new content (anchored at the
run's `newLineNo`); the other removals remain pure deletions and the other
additions pure insertions, all dropped from `changes`. -/
theorem c1_run_pairing (olds news : List (List Char))
    (ho : olds ≠ []) (hn : news ≠ [])
    (hod : ∀ x ∈ olds, nlFree x ∧ leadsWith "--".data x = false)
    (hnd : ∀ y ∈ news, nlFree y ∧ leadsWith "++".data y = false) :
    parse (mkRunDiff olds news) =
      .ok (some ⟨"f", [⟨1, some ⟨olds.getLastD []⟩, some ⟨news.headD []⟩⟩]⟩) := by
  obtain ⟨y0, ytail, rfl⟩ : ∃ y0 ytail, news = y0 :: ytail := by
    cases news with
    | nil => exact absurd rfl hn
    | cons a b => exact ⟨a, b, rfl⟩
  obtain ⟨xe, ros, holds⟩ : ∃ xe ros, olds = ros ++ [xe] := by
    cases hrev : olds.reverse with
    | nil =>
      exact absurd (by simpa using congrArg List.reverse hrev) ho
    | cons a b =>
      refine ⟨a, b.reverse, ?_⟩
      have := congrArg List.reverse hrev
      simpa using this
  subst holds
  have hL : splitlines (mkRunDiff (ros ++ [xe]) (y0 :: ytail)) =
      "diff --git a/f b/f".data :: "@@ -1,1 +1,1 @@".data ::
        ((ros ++ [xe]).map (fun x => '-' :: x) ++
          (y0 :: ytail).map (fun y => '+' :: y)) := by
    show slGo [] false (joinN ("diff --git a/f b/f".data :: "@@ -1,1 +1,1 @@".data ::
      ((ros ++ [xe]).map (fun x => '-' :: x) ++
        (y0 :: ytail).map (fun y => '+' :: y)))) = _
    apply splitlines_joinN
    · intro l hl
      simp only [List.mem_cons, List.mem_append, List.mem_map] at hl
      rcases hl with rfl | hl
      · decide
      rcases hl with rfl | hl
      · decide
      rcases hl with ⟨x, hx, rfl⟩ | ⟨y, hy, rfl⟩
      · intro c hc
        rcases List.mem_cons.mp hc with rfl | hc
        · decide
        · exact (hod x (by simpa using hx)).1 c hc
      · intro c hc
        rcases List.mem_cons.mp hc with rfl | hc
        · decide
        · exact (hnd y (by simpa using hy)).1 c hc
    · intro l hl
      simp only [List.mem_cons, List.mem_append, List.mem_map] at hl
      rcases hl with rfl | hl
      · decide
      rcases hl with rfl | hl
      · decide
      rcases hl with ⟨x, hx, rfl⟩ | ⟨y, hy, rfl⟩ <;> simp
    · simp
  have hnb : isBlank (mkRunDiff (ros ++ [xe]) (y0 :: ytail)) = false := by
    show (joinN ("diff --git a/f b/f".data :: "@@ -1,1 +1,1 @@".data ::
      ((ros ++ [xe]).map (fun x => '-' :: x) ++
        (y0 :: ytail).map (fun y => '+' :: y)))).all isPySpace = false
    rw [joinN_cons_cons, List.all_append]
    have hd : ("diff --git a/f b/f".data).all isPySpace = false := by decide
    simp [hd]
  have hmf : matchFileHeader ("diff --git a/f b/f".data) =
      some ("f".data, "f".data) := by decide
  have s1 : parseStep ⟨[], none, none⟩ ("diff --git a/f b/f".data) =
      ⟨[], none, none⟩ := by decide
  have s2 : parseStep ⟨[], none, none⟩ ("@@ -1,1 +1,1 @@".data) =
      ⟨[], some 1, some 1⟩ := by decide
  have hfold := foldl_removals (ros ++ [xe]) (fun x hx => (hod x hx).2) [] 1 1
  have hrev2 : (ros ++ [xe]).reverse = xe :: ros.reverse := by simp
  rw [hrev2, List.map_cons, List.append_nil] at hfold
  have hy0 := (hnd y0 (List.mem_cons_self y0 ytail)).2
  have hfill := parseStep_add_fill
    (show (⟨1, some ⟨xe⟩, none⟩ : LineChange).new = none from rfl)
    (ros.reverse.map (fun x => (⟨1, some ⟨x⟩, none⟩ : LineChange)))
    (1 + (ros ++ [xe]).length) 1 hy0
  obtain ⟨ins, hinsEq, hinsNone⟩ :=
    foldl_additions ytail (fun z hz => (hnd z (List.mem_cons_of_mem y0 hz)).2)
      ⟨1, some ⟨xe⟩, some ⟨y0⟩⟩ (by simp)
      (ros.reverse.map (fun x => (⟨1, some ⟨x⟩, none⟩ : LineChange)))
      (1 + (ros ++ [xe]).length) (1 + 1)
  have hrun : (("diff --git a/f b/f".data :: "@@ -1,1 +1,1 @@".data ::
      ((ros ++ [xe]).map (fun x => '-' :: x) ++
        (y0 :: ytail).map (fun y => '+' :: y))).foldl parseStep
          ⟨[], none, none⟩) =
      ⟨ins ++ (⟨1, some ⟨xe⟩, some ⟨y0⟩⟩ : LineChange) ::
          ros.reverse.map (fun x => (⟨1, some ⟨x⟩, none⟩ : LineChange)),
        some (1 + (ros ++ [xe]).length), some (1 + 1 + ytail.length)⟩ := by
    rw [List.foldl_cons, s1, List.foldl_cons, s2, List.foldl_append, hfold,
      List.map_cons, List.foldl_cons, hfill, hinsEq]
  have hfil : (((ins ++ (⟨1, some ⟨xe⟩, some ⟨y0⟩⟩ : LineChange) ::
        ros.reverse.map (fun x => (⟨1, some ⟨x⟩, none⟩ : LineChange))).reverse).filter
      (fun c => c.old.isSome && c.new.isSome)) =
      [⟨1, some ⟨xe⟩, some ⟨y0⟩⟩] := by
    rw [List.reverse_append, List.reverse_cons, List.filter_append,
      List.filter_append]
    have e1 : ((ros.reverse.map (fun x => (⟨1, some ⟨x⟩, none⟩ : LineChange))).reverse).filter
        (fun c => c.old.isSome && c.new.isSome) = [] := by
      apply filter_mods_nil
      intro e he
      rw [List.mem_reverse] at he
      obtain ⟨x, _, rfl⟩ := List.mem_map.mp he
      exact Or.inr rfl
    have e2 : (ins.reverse).filter (fun c => c.old.isSome && c.new.isSome) = [] := by
      apply filter_mods_nil
      intro e he
      rw [List.mem_reverse] at he
      exact Or.inl (hinsNone e he)
    rw [e1, e2]
    simp [List.filter_cons]
  unfold parse
  rw [if_neg (by simp [hnb])]
  simp only [hL, List.head?_cons, hmf, hrun, hfil]
  rw [getLastD_append_singleton]
  rfl

/-- C1 witness: three removals `aaa`, `bbb`, `ccc` followed by one addition
`ddd` keep exactly the pair (`ccc`, `ddd`). -/
theorem c1_run_pairing_witness :
    parse (mkRunDiff ["aaa".data, "bbb".data, "ccc".data] ["ddd".data]) =
      .ok (some ⟨"f",
        [⟨1, some ⟨["aaa".data, "bbb".data, "ccc".data].getLastD []⟩,
          some ⟨["ddd".data].headD []⟩⟩]⟩) :=
  c1_run_pairing ["aaa".data, "bbb".data, "ccc".data] ["ddd".data]
    (by decide) (by decide) (by decide) (by decide)

/-- C3 (amended) witness: a non-blank input without a header raises. -/
theorem c3_error_iff_witness :
    parse "junk" = .error "Invalid diff format: missing file header" :=
  (c3_error_iff "junk").mpr ⟨by decide, by decide⟩

/-- C4 (amended) witness: instantiation at a concrete two-line segment. -/
theorem c4_diff_normalized_witness :
    (extract_file_chunks "diff --git a/x b/x\nfoo\n").map RawChunk.diff =
      ((segAux (splitlines "diff --git a/x b/x\nfoo\n")).2).map
        (fun g => (⟨joinN g⟩ : String)) :=
  c4_diff_normalized "diff --git a/x b/x\nfoo\n"

/-- C7 witness: instantiation at a concrete two-segment input. -/
theorem c7_segment_counts_witness :
    (extract_file_chunks "diff --git a/x b/x\nfoo\ndiff --git junk\nbar").length =
      ((splitlines "diff --git a/x b/x\nfoo\ndiff --git junk\nbar").filter
        isDiffLine).length :=
  (c7_segment_counts "diff --git a/x b/x\nfoo\ndiff --git junk\nbar").2.2.1

/-- C10 witness: instantiation at an input with leading junk. -/
theorem c10_chunking_witness :
    extract_file_chunks "junk\ndiff --git a/x b/x\nfoo" =
      ((segAux (splitlines "junk\ndiff --git a/x b/x\nfoo")).2).map mkChunk :=
  (c10_chunking "junk\ndiff --git a/x b/x\nfoo").1

/-- C9 witness: the concrete line `@@ -5 +5 @@`. -/
theorem c9_short_hunk_header_witness :
    matchHunkHeader (shortHunkLine ['5'] ['5']) = none ∧
    parseStep ⟨[], none, none⟩ (shortHunkLine ['5'] ['5']) = ⟨[], none, none⟩ ∧
    parseStep ⟨[], some 3, some 7⟩ (shortHunkLine ['5'] ['5']) =
      ⟨[], some (3 + 1), some (7 + 1)⟩ :=
  c9_short_hunk_header ['5'] ['5'] (by decide) (by decide) (by decide)
    (by decide) [] 3 7

end DiffParser
